import Mathlib

/-!
# Verification of `galnet_rss_publisher.py`

A shallow embedding of the GalNet RSS publisher (a single Python module) into
Lean 4, together with proofs about its message paginator, webhook-target
resolver, seen-set pruning, and the deduplication-and-delivery pipeline.

Strings are modelled as `List Char` (Python `str` is a sequence of unicode
code points).  Python's `-1` "not found" sentinel of `str.rfind` is modelled
as `Option Nat`.  External collaborators (the `bleach` sanitizer, the
secrets-manager backend, the RSS fetcher) are passed in as function
parameters; everything written in the module itself is translated directly.
-/

set_option maxRecDepth 4000

namespace Galnet

/-- `MAX_MSG_LEN = 2000` from the source. -/
def MAX_MSG_LEN : Nat := 2000

/-- `MAX_ARTICLES_SEEN = 30` from the source. -/
def MAX_ARTICLES_SEEN : Nat := 30

/-- `GALNET_BASE_URL` from the source. -/
def GALNET_BASE_URL : List Char := "https://community.elitedangerous.com/en/galnet/uid".data

/-- `EMDASH = '—'` from the source. -/
def EMDASH : Char := '—'

/-- The closing fence appended to a cut chunk: the string `"```"` of the source. -/
def fence : List Char := "```".data

/-- The reopening fence prepended to the remaining content: `"```\n"` of the source. -/
def fenceNl : List Char := "```\n".data

/-- The paragraph-break pattern `"\n\n"` of the source. -/
def nlnl : List Char := "\n\n".data

/-- The word-break pattern `" "` of the source. -/
def spc : List Char := " ".data

/-!
## `str.rfind`

`content.rfind(pat, 0, bound)` in Python returns the highest index `i`
such that `pat` occurs in `content` at `i` and the occurrence is contained
in `content[0:bound]` (that is, `i + len(pat) <= bound`), and `-1` when
there is no such occurrence.  We model it by a single left-to-right pass
that remembers the last (hence highest) in-range occurrence, returning
`Option Nat`.
-/

/-- One pass over the remaining characters `rest` (which sit at offset `i` of
the full string), remembering in `best` the highest in-range match so far. -/
def rfindAux (pat : List Char) (bound : Nat) : Nat → List Char → Option Nat → Option Nat
  | _, [], best => best
  | i, c :: rest, best =>
      let best' := if i + pat.length ≤ bound then
          (if pat.isPrefixOf (c :: rest) then some i else best)
        else best
      rfindAux pat bound (i + 1) rest best'

/-- Python `content.rfind(pat, 0, bound)` (with `-1` as `none`). -/
def rfind (s pat : List Char) (bound : Nat) : Option Nat :=
  rfindAux pat bound 0 s none

/-!
## The paginator, `paginate_message`

The Python loop is translated with an explicit fuel parameter (the loop is
not structurally recursive: a cut near index 0 can lengthen the remaining
content).  `paginateFuel` returns `none` only when the fuel runs out;
`paginateFuel_isSome` below shows `length + 5` fuel always suffices, and
`paginate_message` is the loop run with that fuel.
-/

/-- The cut index chosen by one loop iteration of `paginate_message`:
the `idx` computed by lines 80–86 of the source (paragraph break, else
word break, else the hard boundary `MAX_MSG_LEN - 3`). -/
def cutIdx (content : List Char) : Nat :=
  match rfind content nlnl (MAX_MSG_LEN - 3) with
  | some i => i
  | none =>
    match rfind content spc (MAX_MSG_LEN - 3) with
    | some i => i
    | none => MAX_MSG_LEN - 3

/-- The index the loop advances to after the cut (lines 90–93 of the
source): skip two characters when the character at the cut is a newline,
one when it is a space, none otherwise. -/
def skipIdx (content : List Char) (idx : Nat) : Nat :=
  if content[idx]? = some '\n' then idx + 2
  else if content[idx]? = some ' ' then idx + 1
  else idx

/-- The remaining content after one cut: `"```\n" + content[idx':]` when the
cut is inside the string (the guard `len(content) > idx` of line 89),
otherwise the empty string (line 96). -/
def nextContent (content : List Char) : List Char :=
  let idx := cutIdx content
  if idx < content.length then fenceNl ++ content.drop (skipIdx content idx)
  else []

/-- The `while` loop of `paginate_message` (lines 75–96), with fuel. -/
def paginateFuel : Nat → List Char → Option (List (List Char))
  | 0, _ => none
  | fuel + 1, content =>
    if content.length = 0 then some []
    else if content.length ≤ MAX_MSG_LEN then some [content]
    else
      match paginateFuel fuel (nextContent content) with
      | none => none
      | some parts => some ((content.take (cutIdx content) ++ fence) :: parts)

/-- `paginate_message` of the source.  `paginateFuel_isSome` proves the
default branch is never taken. -/
def paginate_message (content : List Char) : List (List Char) :=
  (paginateFuel (content.length + 5) content).getD []

/-- Termination measure for the paginator loop: a first iteration can grow
the content by up to 3 characters (a cut at index 0 removes at most 2 and
prepends 4), but afterwards the content always starts with the reopening
fence and every iteration shrinks it. -/
def pMeasure (s : List Char) : Nat :=
  s.length + (if fenceNl.isPrefixOf s then 0 else 4)

/-!
## Specification-side descriptions of the cut (for claim C2)

These definitions are written from the specification's words, to be compared
with the behaviour of `paginate_message`: the cut goes to the nearest
paragraph break (two consecutive newlines) found searching backward through
`content[0:1997]`, else the nearest space there, else position `1997`.
-/

/-- A paragraph break (two consecutive newline characters) sits at
position `i` of `s`. -/
def ParaBreakAt (s : List Char) (i : Nat) : Prop :=
  s[i]? = some '\n' ∧ s[i + 1]? = some '\n'

/-- A space character sits at position `i` of `s`. -/
def SpaceAt (s : List Char) (i : Nat) : Prop :=
  s[i]? = some ' '

instance (s : List Char) (i : Nat) : Decidable (ParaBreakAt s i) := by
  unfold ParaBreakAt; infer_instance

instance (s : List Char) (i : Nat) : Decidable (SpaceAt s i) := by
  unfold SpaceAt; infer_instance

/-- The nearest paragraph break found backward from position 1997 (the
break, two characters wide, must be contained in `content[0:1997]`, so its
position is at most 1995); `none` if there is none. -/
def specParaCut (c : List Char) : Option Nat :=
  let k := Nat.findGreatest (ParaBreakAt c) (MAX_MSG_LEN - 3 - 2)
  if ParaBreakAt c k then some k else none

/-- The nearest space found backward in the same range (the space must be
contained in `content[0:1997]`, so its position is at most 1996); `none`
if there is none. -/
def specSpaceCut (c : List Char) : Option Nat :=
  let k := Nat.findGreatest (SpaceAt c) (MAX_MSG_LEN - 3 - 1)
  if SpaceAt c k then some k else none

/-- The cut position claim C2 describes: nearest paragraph break backward
from position 1997, else nearest space in the same range, else the hard
boundary 1997. -/
def specCut (c : List Char) : Nat :=
  match specParaCut c with
  | some i => i
  | none =>
    match specSpaceCut c with
    | some i => i
    | none => MAX_MSG_LEN - 3

/-!
## Fence balance (for claim C4)

The number of (non-overlapping, leftmost-first) occurrences of the
triple-backtick fence delimiter in a string; a string is fence-balanced
when that number is even.
-/

/-- Count of non-overlapping triple-backtick fence delimiters. -/
def fenceCount : List Char → Nat
  | '`' :: '`' :: '`' :: rest => fenceCount rest + 1
  | _ :: rest => fenceCount rest
  | [] => 0

/-- A string is fence-balanced when it contains an even number of fence
delimiters, so every opened fenced block is closed. -/
def fenceBalanced (c : List Char) : Prop := fenceCount c % 2 = 0

instance (c : List Char) : Decidable (fenceBalanced c) := by
  unfold fenceBalanced; infer_instance

/-!
## Reconstruction relation (for claim C3)

`Reassembles content parts` holds when `parts` is `content` cut into pieces
where, at every cut, a closing fence `"```"` is appended to the emitted
chunk, a reopening fence `"```\n"` is prepended to the remainder, and the
separator characters at the cut are dropped: two characters when the
character at the cut is a newline (the paragraph break), one when it is a
space, none otherwise.
-/

inductive Reassembles : List Char → List (List Char) → Prop
  | nil : Reassembles [] []
  | last (c : List Char) : Reassembles c [c]
  | cut (body sep tail : List Char) (rest : List (List Char))
      (hsep : sep = [] ∨ sep = [' '] ∨ ∃ c2, sep = ['\n', c2])
      (hrec : Reassembles (fenceNl ++ tail) rest) :
      Reassembles (body ++ (sep ++ tail)) ((body ++ fence) :: rest)

/-!
## `filter_item`, sanitization plumbing and `process_feed_items`

`bleach.clean` is an external collaborator and is passed in as a function
parameter `san`.  The `re.sub(br_pat, '\n', ...)` call and `str.rstrip()`
are translated directly (`rstrip` over the ASCII whitespace characters).
-/

/-- A transient feed item: `guid`, `title` and `description` fields of the
RSS entries consumed by `process_feed_items`. -/
structure FeedItem where
  guid : List Char
  title : List Char
  description : List Char
deriving DecidableEq

/-- `filter_item` of the source: drop items titled exactly "Week in Review". -/
def filter_item (title : List Char) (body : List Char) : Bool :=
  if title = "Week in Review".data then true else false

/-- `re.sub(re.compile('<br ?/>'), '\n', s)`: replace every `<br/>` or
`<br />` occurrence (leftmost first) with a newline. -/
def br_sub : List Char → List Char
  | '<' :: 'b' :: 'r' :: '/' :: '>' :: rest => '\n' :: br_sub rest
  | '<' :: 'b' :: 'r' :: ' ' :: '/' :: '>' :: rest => '\n' :: br_sub rest
  | c :: rest => c :: br_sub rest
  | [] => []

/-- Python `str.isspace` restricted to the ASCII whitespace characters
(the only ones the GalNet feed produces). -/
def pyIsSpace (c : Char) : Bool :=
  c = ' ' || c = '\t' || c = '\n' || c = '\r' || c = '\x0b' || c = '\x0c'

/-- Python `str.rstrip()`: drop trailing whitespace. -/
def pyRstrip (s : List Char) : List Char :=
  (s.reverse.dropWhile pyIsSpace).reverse

/-- The rendered message content of line 199 of the source:
`f"**{title}** {EMDASH} [Link]({GALNET_BASE_URL}/{guid})\n```\n{desc}```"`. -/
def buildContent (title guid desc : List Char) : List Char :=
  "**".data ++ title ++ "** ".data ++ [EMDASH] ++ " [Link](".data ++
    GALNET_BASE_URL ++ "/".data ++ guid ++ ")\n```\n".data ++ desc ++ "```".data

/-- `process_feed_items` of the source: sanitize each item, skip those whose
sanitized guid is already in `articles_seen`, skip the filtered ones, and
render the rest (in order) into `(guid, content)` publish candidates.
The sanitizer `bleach.clean` is the parameter `san`. -/
def process_feed_items (san : List Char → List Char) (items : List FeedItem)
    (articles_seen : List (List Char)) : List (List Char × List Char) :=
  match items with
  | [] => []
  | item :: rest =>
    let guid := san item.guid
    if guid ∈ articles_seen then process_feed_items san rest articles_seen
    else
      let title := san item.title
      let desc := san (pyRstrip (br_sub item.description))
      if filter_item title desc then process_feed_items san rest articles_seen
      else (guid, buildContent title guid desc) :: process_feed_items san rest articles_seen

/-!
## `publish_articles`, `prune_articles_seen`, `lambda_handler`

`publish_articles` is modelled as a pure fold over the candidates that
records the webhook posts (one per chunk, in delivery order), the guids
appended to `articles_seen` (one per fully delivered article, in order) and
the published count.  The HTTP POST and the 1-second sleep have no
observable effect on the state beyond the ordered post list.
-/

/-- `publish_articles` of the source: for each candidate in order, paginate
its content and deliver the chunks in order, then append its guid to
`articles_seen` and bump the count.  Returns
`(posts, updated articles_seen, published_count)`. -/
def publish_articles (articles_to_publish : List (List Char × List Char))
    (articles_seen : List (List Char)) : List (List Char) × List (List Char) × Nat :=
  match articles_to_publish with
  | [] => ([], articles_seen, 0)
  | (guid, content) :: rest =>
    let parts := paginate_message content
    let r := publish_articles rest (articles_seen ++ [guid])
    (parts ++ r.1, r.2.1, r.2.2 + 1)

/-- `prune_articles_seen` of the source, returning the list persisted in
`state['articles_seen']`: when over `MAX_ARTICLES_SEEN`, keep only the last
`MAX_ARTICLES_SEEN` entries; otherwise the state keeps the (aliased)
`articles_seen` list unchanged. -/
def prune_articles_seen (articles_seen : List (List Char)) : List (List Char) :=
  if articles_seen.length > MAX_ARTICLES_SEEN then
    articles_seen.drop (articles_seen.length - MAX_ARTICLES_SEEN)
  else articles_seen

/-- The observable outcome of one `lambda_handler` invocation. -/
structure RunResult where
  /-- `some 500` when the handler returned the feed-failure status object. -/
  statusCode : Option Nat
  /-- The `articles_seen` list passed to `save_state`, `none` when
  `save_state` was not called. -/
  savedSeen : Option (List (List Char))
  /-- Whether `get_webhook_url` was called. -/
  webhookResolved : Bool
  /-- The chunk payloads POSTed to the webhook, in delivery order. -/
  posts : List (List Char)
  /-- The guids appended to `articles_seen` by the publish loop, in order. -/
  publishedGuids : List (List Char)
  /-- The count `publish_articles` returned. -/
  publishedCount : Nat
deriving DecidableEq

/-- `lambda_handler` of the source (lines 226–264), as a function of the
sanitizer, the fetched feed (`none` models a fetch failure) and the loaded
`articles_seen` state. -/
def lambda_handler (san : List Char → List Char) (feed : Option (List FeedItem))
    (articles_seen : List (List Char)) : RunResult :=
  match feed with
  | none => ⟨some 500, none, false, [], [], 0⟩
  | some feedItems =>
    let items := feedItems.reverse
    let articles_to_publish := process_feed_items san items articles_seen
    if articles_to_publish.isEmpty then ⟨none, none, false, [], [], 0⟩
    else
      let r := publish_articles articles_to_publish articles_seen
      let pruned := prune_articles_seen r.2.1
      ⟨none, some pruned, true, r.1, articles_to_publish.map Prod.fst, r.2.2⟩

/-!
## `get_webhook_url`

The secrets-manager backend is the parameter `secrets` (mapping the ARN to
the stored secret string).  The Python exceptions become explicit outcome
constructors.
-/

/-- The outcome of `get_webhook_url`. -/
inductive WebhookResult
  /-- The resolved URL returned. -/
  | url (u : List Char)
  /-- `raise ValueError` (a configuration error). -/
  | valueError
  /-- `raise NotImplementedError` (unknown ARN service). -/
  | notImplementedError
  /-- `raise RuntimeError("This error shouldn't be reached")`. -/
  | runtimeError
  /-- `IndexError` from `webhook_url.split(':', maxsplit=5)[2]`. -/
  | indexError
deriving DecidableEq

/-- Python `s.split(sep, maxsplit)`: split on `sep` at most `maxsplit`
times, keeping the remainder whole.  `acc` holds the current token
reversed. -/
def splitMaxAux (sep : Char) : Nat → List Char → List Char → List (List Char)
  | _, acc, [] => [acc.reverse]
  | 0, acc, rest => [acc.reverse ++ rest]
  | m + 1, acc, c :: rest =>
    if c = sep then acc.reverse :: splitMaxAux sep m [] rest
    else splitMaxAux sep (m + 1) (c :: acc) rest

/-- Python `s.split(sep, maxsplit=n)`. -/
def splitMax (s : List Char) (sep : Char) (maxsplit : Nat) : List (List Char) :=
  splitMaxAux sep maxsplit [] s

/-- `get_webhook_url` of the source, as a function of the configured
`WEBHOOK_URL` value and the secrets-manager backend. -/
def get_webhook_url (secrets : List Char → List Char) (webhook_url : List Char) :
    WebhookResult :=
  if webhook_url = [] then .valueError
  else if ¬ "arn".data.isPrefixOf webhook_url ∧ ¬ "http".data.isPrefixOf webhook_url then
    .valueError
  else if "arn:".data.isPrefixOf webhook_url then
    match (splitMax webhook_url ':' 5)[2]? with
    | none => .indexError
    | some service_name =>
      if service_name = "secretsmanager".data then .url (secrets webhook_url)
      else .notImplementedError
  else if "http".data.isPrefixOf webhook_url then .url webhook_url
  else .runtimeError

/-!
## Concrete inputs used by witnesses and counterexamples
-/

/-- 2052 characters: a paragraph break after 100 `a`s, then 1950 `b`s. -/
def cexDropped : List Char :=
  List.replicate 100 'a' ++ '\n' :: '\n' :: List.replicate 1950 'b'

/-- 2001 characters with no fence, no space and no paragraph break. -/
def cexUnbalanced : List Char := List.replicate 2001 'a'

/-- 2007 characters with its (only) paragraph break at position 1995. -/
def witLateBreak : List Char :=
  List.replicate 1995 'a' ++ '\n' :: '\n' :: List.replicate 10 'b'

/-- A feed of 31 items with pairwise distinct guids and harmless bodies. -/
def feed31 : List FeedItem :=
  (List.range 31).map (fun i => ⟨[Char.ofNat (65 + i)], ['t'], ['d']⟩)

/-- A seen-identifier list of 31 distinct entries. -/
def seen31 : List (List Char) :=
  (List.range 31).map (fun i => [Char.ofNat (65 + i)])

/-- Three-item feed in newest-first order `[C, B, A]`. -/
def itemA : FeedItem := ⟨"gA".data, "tA".data, "bodyA".data⟩

/-- See `itemA`. -/
def itemB : FeedItem := ⟨"gB".data, "tB".data, "bodyB".data⟩

/-- See `itemA`. -/
def itemC : FeedItem := ⟨"gC".data, "tC".data, "bodyC".data⟩

/-!
# Theorems

## Characterization of `rfind`

`rfind s pat b` returns the highest position `k` with an occurrence of
`pat` contained in `s[0:b]`, and `none` when there is none.
-/

/-- A nonempty pattern is not a prefix of the empty list. -/
theorem not_isPrefixOf_nil {pat : List Char} (hpat : pat ≠ []) :
    ¬ pat.isPrefixOf ([] : List Char) := by
  cases pat with
  | nil => exact absurd rfl hpat
  | cons a as => simp [List.isPrefixOf]

/-- Invariant of the scanning pass `rfindAux`: the result is the highest
in-range occurrence when there is one at or after the current offset, and
otherwise the carried `best`. -/
theorem rfindAux_go (pat : List Char) (hpat : pat ≠ []) (b : Nat) :
    ∀ (rest : List Char) (i : Nat) (best : Option Nat),
      (rfindAux pat b i rest best = none →
        best = none ∧ ∀ d, i + d + pat.length ≤ b → ¬ pat.isPrefixOf (rest.drop d)) ∧
      (∀ k, rfindAux pat b i rest best = some k →
        (∃ d, k = i + d ∧ i + d + pat.length ≤ b ∧ pat.isPrefixOf (rest.drop d) ∧
          ∀ e, d < e → i + e + pat.length ≤ b → ¬ pat.isPrefixOf (rest.drop e)) ∨
        (best = some k ∧ ∀ d, i + d + pat.length ≤ b → ¬ pat.isPrefixOf (rest.drop d))) := by
  intro rest
  induction rest with
  | nil =>
    intro i best
    constructor
    · intro h
      refine ⟨h, fun d _ hpre => ?_⟩
      rw [List.drop_nil] at hpre
      exact not_isPrefixOf_nil hpat hpre
    · intro k hk
      right
      refine ⟨hk, fun d _ hpre => ?_⟩
      rw [List.drop_nil] at hpre
      exact not_isPrefixOf_nil hpat hpre
  | cons c rest ih =>
    intro i best
    have hstep : ∀ bst, rfindAux pat b i (c :: rest) bst =
        rfindAux pat b (i + 1) rest
          (if i + pat.length ≤ b then
            (if pat.isPrefixOf (c :: rest) then some i else bst)
          else bst) := fun _ => rfl
    by_cases hb : i + pat.length ≤ b
    · by_cases hm : pat.isPrefixOf (c :: rest)
      · -- an occurrence at the current position: `best` becomes `some i`
        constructor
        · intro h
          rw [hstep best, if_pos hb, if_pos hm] at h
          exact absurd ((ih (i + 1) (some i)).1 h).1 (by simp)
        · intro k hk
          rw [hstep best, if_pos hb, if_pos hm] at hk
          rcases (ih (i + 1) (some i)).2 k hk with ⟨d, hkd, hdb, hdm, hmax⟩ | ⟨hbk, hnone⟩
          · left
            refine ⟨d + 1, by omega, by omega, ?_, ?_⟩
            · rwa [List.drop_succ_cons]
            · intro e he heb
              cases e with
              | zero => omega
              | succ e' =>
                rw [List.drop_succ_cons]
                exact hmax e' (by omega) (by omega)
          · left
            refine ⟨0, by simpa using hbk.symm, by simpa using hb, by simpa using hm, ?_⟩
            intro e he heb
            cases e with
            | zero => omega
            | succ e' =>
              rw [List.drop_succ_cons]
              exact hnone e' (by omega)
      · -- in range but no occurrence here: `best` is carried through
        constructor
        · intro h
          rw [hstep best, if_pos hb, if_neg hm] at h
          obtain ⟨h1, h2⟩ := (ih (i + 1) best).1 h
          refine ⟨h1, fun d hd => ?_⟩
          cases d with
          | zero => simpa using hm
          | succ d' =>
            rw [List.drop_succ_cons]
            exact h2 d' (by omega)
        · intro k hk
          rw [hstep best, if_pos hb, if_neg hm] at hk
          rcases (ih (i + 1) best).2 k hk with ⟨d, hkd, hdb, hdm, hmax⟩ | ⟨hbk, hnone⟩
          · left
            refine ⟨d + 1, by omega, by omega, ?_, ?_⟩
            · rwa [List.drop_succ_cons]
            · intro e he heb
              cases e with
              | zero => omega
              | succ e' =>
                rw [List.drop_succ_cons]
                exact hmax e' (by omega) (by omega)
          · right
            refine ⟨hbk, fun d hd => ?_⟩
            cases d with
            | zero => simpa using hm
            | succ d' =>
              rw [List.drop_succ_cons]
              exact hnone d' (by omega)
    · -- the occurrence would overrun the bound
      constructor
      · intro h
        rw [hstep best, if_neg hb] at h
        obtain ⟨h1, h2⟩ := (ih (i + 1) best).1 h
        refine ⟨h1, fun d hd => ?_⟩
        cases d with
        | zero => omega
        | succ d' =>
          rw [List.drop_succ_cons]
          exact h2 d' (by omega)
      · intro k hk
        rw [hstep best, if_neg hb] at hk
        rcases (ih (i + 1) best).2 k hk with ⟨d, hkd, hdb, hdm, hmax⟩ | ⟨hbk, hnone⟩
        · left
          refine ⟨d + 1, by omega, by omega, ?_, ?_⟩
          · rwa [List.drop_succ_cons]
          · intro e he heb
            cases e with
            | zero => omega
            | succ e' =>
              rw [List.drop_succ_cons]
              exact hmax e' (by omega) (by omega)
        · right
          refine ⟨hbk, fun d hd => ?_⟩
          cases d with
          | zero => omega
          | succ d' =>
            rw [List.drop_succ_cons]
            exact hnone d' (by omega)

/-- When `rfind` reports no occurrence, there is none in range. -/
theorem rfind_none {s pat : List Char} {b : Nat} (hpat : pat ≠ [])
    (h : rfind s pat b = none) :
    ∀ i, i + pat.length ≤ b → ¬ pat.isPrefixOf (s.drop i) := by
  intro i hi
  have := ((rfindAux_go pat hpat b s 0 none).1 h).2 i (by omega)
  simpa using this

/-- When `rfind` reports an occurrence, it is one, it is in range, and it
is the highest in-range occurrence. -/
theorem rfind_some {s pat : List Char} {b k : Nat} (hpat : pat ≠ [])
    (h : rfind s pat b = some k) :
    k + pat.length ≤ b ∧ pat.isPrefixOf (s.drop k) ∧
      ∀ j, k < j → j + pat.length ≤ b → ¬ pat.isPrefixOf (s.drop j) := by
  rcases (rfindAux_go pat hpat b s 0 none).2 k h with ⟨d, hkd, hdb, hdm, hmax⟩ | ⟨hbk, _⟩
  · have hdk : k = d := by omega
    subst hdk
    refine ⟨by omega, hdm, fun j hj hjb => ?_⟩
    have := hmax j (by omega) (by omega)
    simpa using this
  · exact absurd hbk.symm (by simp)

/-!
## The cut position: `cutIdx` agrees with the specification's description
-/

/-- A two-character pattern is a prefix exactly when its characters sit at
positions 0 and 1. -/
theorem isPrefixOf_pair {a b : Char} {l : List Char} :
    ([a, b]).isPrefixOf l = true ↔ l[0]? = some a ∧ l[1]? = some b := by
  match l with
  | [] => simp [List.isPrefixOf]
  | [x] => simp [List.isPrefixOf]
  | x :: y :: rest =>
    simp only [List.isPrefixOf, Bool.and_eq_true, beq_iff_eq, List.getElem?_cons_zero,
      List.getElem?_cons_succ, Option.some.injEq]
    constructor
    · rintro ⟨rfl, rfl, -⟩
      exact ⟨rfl, rfl⟩
    · rintro ⟨rfl, rfl⟩
      exact ⟨rfl, rfl, trivial⟩

/-- A one-character pattern is a prefix exactly when its character sits at
position 0. -/
theorem isPrefixOf_single {a : Char} {l : List Char} :
    ([a]).isPrefixOf l = true ↔ l[0]? = some a := by
  match l with
  | [] => simp [List.isPrefixOf]
  | x :: rest =>
    simp only [List.isPrefixOf, Bool.and_eq_true, beq_iff_eq, List.getElem?_cons_zero,
      Option.some.injEq]
    constructor
    · rintro ⟨rfl, -⟩
      rfl
    · rintro rfl
      exact ⟨rfl, trivial⟩

/-- `"\n\n"` occurs at position `i` of `s` exactly when a paragraph break
sits there. -/
theorem nlnl_isPrefixOf_drop {s : List Char} {i : Nat} :
    nlnl.isPrefixOf (s.drop i) = true ↔ ParaBreakAt s i := by
  have h : nlnl = ['\n', '\n'] := rfl
  rw [h, isPrefixOf_pair, ParaBreakAt]
  rw [List.getElem?_drop, List.getElem?_drop]
  simp

/-- `" "` occurs at position `i` of `s` exactly when a space sits there. -/
theorem spc_isPrefixOf_drop {s : List Char} {i : Nat} :
    spc.isPrefixOf (s.drop i) = true ↔ SpaceAt s i := by
  have h : spc = [' '] := rfl
  rw [h, isPrefixOf_single, SpaceAt]
  rw [List.getElem?_drop]
  simp

/-- The paragraph-break search of the source is the specification's
"nearest paragraph break found backward from position 1997". -/
theorem rfind_nlnl_eq_specParaCut (s : List Char) :
    rfind s nlnl (MAX_MSG_LEN - 3) = specParaCut s := by
  have hpat : nlnl ≠ [] := by simp [nlnl]
  have hlen : nlnl.length = 2 := rfl
  have hM : MAX_MSG_LEN = 2000 := rfl
  cases h : rfind s nlnl (MAX_MSG_LEN - 3) with
  | none =>
    have hnone := rfind_none hpat h
    rw [specParaCut, if_neg]
    intro hP
    have hk : Nat.findGreatest (ParaBreakAt s) (MAX_MSG_LEN - 3 - 2) ≤ MAX_MSG_LEN - 3 - 2 :=
      Nat.findGreatest_le _
    exact hnone _ (by omega) (nlnl_isPrefixOf_drop.mpr hP)
  | some k =>
    obtain ⟨hkb, hkm, hmax⟩ := rfind_some hpat h
    rw [hlen] at hkb
    have hPk : ParaBreakAt s k := nlnl_isPrefixOf_drop.mp hkm
    have hk1995 : k ≤ MAX_MSG_LEN - 3 - 2 := by omega
    have hge : k ≤ Nat.findGreatest (ParaBreakAt s) (MAX_MSG_LEN - 3 - 2) :=
      Nat.le_findGreatest hk1995 hPk
    have hle : Nat.findGreatest (ParaBreakAt s) (MAX_MSG_LEN - 3 - 2) ≤ k := by
      by_contra hlt
      push_neg at hlt
      have hgle : Nat.findGreatest (ParaBreakAt s) (MAX_MSG_LEN - 3 - 2) ≤ MAX_MSG_LEN - 3 - 2 :=
        Nat.findGreatest_le _
      have hgne : Nat.findGreatest (ParaBreakAt s) (MAX_MSG_LEN - 3 - 2) ≠ 0 := by omega
      have hPg : ParaBreakAt s (Nat.findGreatest (ParaBreakAt s) (MAX_MSG_LEN - 3 - 2)) :=
        Nat.findGreatest_of_ne_zero rfl hgne
      exact hmax _ hlt (by omega) (nlnl_isPrefixOf_drop.mpr hPg)
    have heq : Nat.findGreatest (ParaBreakAt s) (MAX_MSG_LEN - 3 - 2) = k :=
      Nat.le_antisymm hle hge
    rw [specParaCut]
    simp only [heq]
    rw [if_pos hPk]

/-- The word-break search of the source is the specification's "nearest
single space in the same range". -/
theorem rfind_spc_eq_specSpaceCut (s : List Char) :
    rfind s spc (MAX_MSG_LEN - 3) = specSpaceCut s := by
  have hpat : spc ≠ [] := by simp [spc]
  have hlen : spc.length = 1 := rfl
  have hM : MAX_MSG_LEN = 2000 := rfl
  cases h : rfind s spc (MAX_MSG_LEN - 3) with
  | none =>
    have hnone := rfind_none hpat h
    rw [specSpaceCut, if_neg]
    intro hP
    have hk : Nat.findGreatest (SpaceAt s) (MAX_MSG_LEN - 3 - 1) ≤ MAX_MSG_LEN - 3 - 1 :=
      Nat.findGreatest_le _
    exact hnone _ (by omega) (spc_isPrefixOf_drop.mpr hP)
  | some k =>
    obtain ⟨hkb, hkm, hmax⟩ := rfind_some hpat h
    rw [hlen] at hkb
    have hPk : SpaceAt s k := spc_isPrefixOf_drop.mp hkm
    have hk1996 : k ≤ MAX_MSG_LEN - 3 - 1 := by omega
    have hge : k ≤ Nat.findGreatest (SpaceAt s) (MAX_MSG_LEN - 3 - 1) :=
      Nat.le_findGreatest hk1996 hPk
    have hle : Nat.findGreatest (SpaceAt s) (MAX_MSG_LEN - 3 - 1) ≤ k := by
      by_contra hlt
      push_neg at hlt
      have hgle : Nat.findGreatest (SpaceAt s) (MAX_MSG_LEN - 3 - 1) ≤ MAX_MSG_LEN - 3 - 1 :=
        Nat.findGreatest_le _
      have hgne : Nat.findGreatest (SpaceAt s) (MAX_MSG_LEN - 3 - 1) ≠ 0 := by omega
      have hPg : SpaceAt s (Nat.findGreatest (SpaceAt s) (MAX_MSG_LEN - 3 - 1)) :=
        Nat.findGreatest_of_ne_zero rfl hgne
      exact hmax _ hlt (by omega) (spc_isPrefixOf_drop.mpr hPg)
    have heq : Nat.findGreatest (SpaceAt s) (MAX_MSG_LEN - 3 - 1) = k :=
      Nat.le_antisymm hle hge
    rw [specSpaceCut]
    simp only [heq]
    rw [if_pos hPk]

/-- The cut index the source computes is exactly the cut position the
specification describes. -/
theorem cutIdx_eq_specCut (s : List Char) : cutIdx s = specCut s := by
  rw [cutIdx, specCut, rfind_nlnl_eq_specParaCut, rfind_spc_eq_specSpaceCut]

/-!
## Shape of one paginator iteration, and termination
-/

/-- The chosen cut never exceeds the hard boundary `MAX_MSG_LEN - 3`. -/
theorem cutIdx_le (s : List Char) : cutIdx s ≤ MAX_MSG_LEN - 3 := by
  have hn : nlnl.length = 2 := rfl
  have hs : spc.length = 1 := rfl
  rw [cutIdx]
  cases h1 : rfind s nlnl (MAX_MSG_LEN - 3) with
  | some k =>
    have := (rfind_some (by simp [nlnl]) h1).1
    show k ≤ MAX_MSG_LEN - 3
    omega
  | none =>
    cases h2 : rfind s spc (MAX_MSG_LEN - 3) with
    | some k =>
      have := (rfind_some (by simp [spc]) h2).1
      show k ≤ MAX_MSG_LEN - 3
      omega
    | none => exact Nat.le_refl _

/-- At the cut there is a paragraph break, or a space, or the cut is the
hard boundary. -/
theorem cutIdx_cases (s : List Char) :
    (s[cutIdx s]? = some '\n' ∧ s[cutIdx s + 1]? = some '\n') ∨
      s[cutIdx s]? = some ' ' ∨ cutIdx s = MAX_MSG_LEN - 3 := by
  rw [cutIdx]
  cases h1 : rfind s nlnl (MAX_MSG_LEN - 3) with
  | some k =>
    left
    exact nlnl_isPrefixOf_drop.mp (rfind_some (by simp [nlnl]) h1).2.1
  | none =>
    cases h2 : rfind s spc (MAX_MSG_LEN - 3) with
    | some k =>
      right; left
      exact spc_isPrefixOf_drop.mp (rfind_some (by simp [spc]) h2).2.1
    | none => right; right; rfl

/-- The advance never skips more than the two paragraph-break characters. -/
theorem skipIdx_le (s : List Char) (idx : Nat) : skipIdx s idx ≤ idx + 2 := by
  rw [skipIdx]
  split
  · omega
  split
  · omega
  · omega

/-- The advance never moves backward. -/
theorem le_skipIdx (s : List Char) (idx : Nat) : idx ≤ skipIdx s idx := by
  rw [skipIdx]
  split
  · omega
  split
  · omega
  · omega

/-- An option cannot hold two different characters. -/
theorem some_char_ne {a b : Char} (hab : a ≠ b) {o : Option Char}
    (h1 : o = some a) (h2 : o = some b) : False := by
  rw [h1] at h2
  exact hab (Option.some.inj h2)

/-- After a cut the loop always advances at least one position: a
paragraph-break cut or a space cut lands on a skipped character, and the
hard cut is at position 1997. -/
theorem skipIdx_cutIdx_pos (s : List Char) : 1 ≤ skipIdx s (cutIdx s) := by
  have hM : MAX_MSG_LEN = 2000 := rfl
  rcases cutIdx_cases s with ⟨hn, -⟩ | hsp | hhard
  · rw [skipIdx, if_pos hn]
    omega
  · rw [skipIdx, if_neg (fun hc => some_char_ne (by decide) hsp hc), if_pos hsp]
    omega
  · have := le_skipIdx s (cutIdx s)
    omega

/-- The first four characters of a string that starts with the reopening
fence. -/
theorem fenceNl_chars {s : List Char} (h : fenceNl.isPrefixOf s = true) :
    s[0]? = some '`' ∧ s[1]? = some '`' ∧ s[2]? = some '`' ∧ s[3]? = some '\n' := by
  have hf : fenceNl = ['`', '`', '`', '\n'] := rfl
  rw [hf] at h
  match s, h with
  | [], h => simp [List.isPrefixOf] at h
  | [a], h => simp [List.isPrefixOf] at h
  | [a, b], h => simp [List.isPrefixOf] at h
  | [a, b, c'], h => simp [List.isPrefixOf] at h
  | a :: b :: c' :: d :: rest, h =>
    simp only [List.isPrefixOf, Bool.and_eq_true, beq_iff_eq] at h
    obtain ⟨rfl, rfl, rfl, rfl, -⟩ := h
    refine ⟨?_, ?_, ?_, ?_⟩ <;> simp

/-- On content that starts with the reopening fence, every iteration
advances by at least five positions (so the content shrinks). -/
theorem skipIdx_cutIdx_ge_five (s : List Char) (hpre : fenceNl.isPrefixOf s = true) :
    5 ≤ skipIdx s (cutIdx s) := by
  obtain ⟨h0, h1, h2, h3⟩ := fenceNl_chars hpre
  have hM : MAX_MSG_LEN = 2000 := rfl
  rcases cutIdx_cases s with ⟨hn, -⟩ | hsp | hhard
  · have hge : 3 ≤ cutIdx s := by
      by_contra hlt
      push_neg at hlt
      have h012 : cutIdx s = 0 ∨ cutIdx s = 1 ∨ cutIdx s = 2 := by omega
      rcases h012 with he | he | he <;> rw [he] at hn
      · exact some_char_ne (by decide) h0 hn
      · exact some_char_ne (by decide) h1 hn
      · exact some_char_ne (by decide) h2 hn
    rw [skipIdx, if_pos hn]
    omega
  · have hge : 4 ≤ cutIdx s := by
      by_contra hlt
      push_neg at hlt
      have h0123 : cutIdx s = 0 ∨ cutIdx s = 1 ∨ cutIdx s = 2 ∨ cutIdx s = 3 := by omega
      rcases h0123 with he | he | he | he <;> rw [he] at hsp
      · exact some_char_ne (by decide) h0 hsp
      · exact some_char_ne (by decide) h1 hsp
      · exact some_char_ne (by decide) h2 hsp
      · exact some_char_ne (by decide) h3 hsp
    rw [skipIdx, if_neg (fun hc => some_char_ne (by decide) hsp hc), if_pos hsp]
    omega
  · have := le_skipIdx s (cutIdx s)
    omega

/-- On oversized content the guard `len(content) > idx` always holds, so the
remaining content is the reopening fence plus the content past the skip. -/
theorem nextContent_eq {s : List Char} (hs : MAX_MSG_LEN < s.length) :
    nextContent s = fenceNl ++ s.drop (skipIdx s (cutIdx s)) := by
  have hM : MAX_MSG_LEN = 2000 := rfl
  have hcut := cutIdx_le s
  rw [nextContent]
  exact if_pos (by omega)

/-- Any list is a `isPrefixOf` of itself followed by anything. -/
theorem isPrefixOf_append_self (l t : List Char) : l.isPrefixOf (l ++ t) = true := by
  induction l with
  | nil => simp [List.isPrefixOf]
  | cons a as ih => simp [List.isPrefixOf, ih]

/-- The measure is bounded by the length plus 4. -/
theorem pMeasure_le (s : List Char) : pMeasure s ≤ s.length + 4 := by
  rw [pMeasure]
  split <;> omega

/-- One oversized iteration strictly decreases the measure. -/
theorem pMeasure_nextContent_lt {s : List Char} (hs : MAX_MSG_LEN < s.length) :
    pMeasure (nextContent s) < pMeasure s := by
  have hM : MAX_MSG_LEN = 2000 := rfl
  have hcut := cutIdx_le s
  have hskip_le := skipIdx_le s (cutIdx s)
  have hnext := nextContent_eq hs
  have hfl : fenceNl.length = 4 := rfl
  have hlen_next : (nextContent s).length = 4 + (s.length - skipIdx s (cutIdx s)) := by
    rw [hnext, List.length_append, hfl, List.length_drop]
  have hpre_next : fenceNl.isPrefixOf (nextContent s) = true := by
    rw [hnext]
    exact isPrefixOf_append_self _ _
  by_cases hp : fenceNl.isPrefixOf s = true
  · have h5 := skipIdx_cutIdx_ge_five s hp
    rw [pMeasure, pMeasure, if_pos hpre_next, if_pos hp]
    omega
  · have h1 := skipIdx_cutIdx_pos s
    rw [pMeasure, pMeasure, if_pos hpre_next, if_neg hp]
    omega

/-- With fuel at least the measure, the paginator loop completes. -/
theorem paginateFuel_isSome :
    ∀ (fuel : Nat) (s : List Char), pMeasure s ≤ fuel → (paginateFuel fuel s).isSome := by
  intro fuel
  induction fuel with
  | zero =>
    intro s hs
    exfalso
    by_cases hp : fenceNl.isPrefixOf s = true
    · rw [pMeasure, if_pos hp] at hs
      have h0 : s.length = 0 := by omega
      have : s = [] := List.length_eq_zero.mp h0
      rw [this] at hp
      exact absurd hp (by decide)
    · rw [pMeasure, if_neg hp] at hs
      omega
  | succ fuel ih =>
    intro s hs
    by_cases h0 : s.length = 0
    · simp [paginateFuel, h0]
    by_cases h2 : s.length ≤ MAX_MSG_LEN
    · simp [paginateFuel, h0, h2]
    · have hlt := pMeasure_nextContent_lt (Nat.lt_of_not_le h2)
      obtain ⟨parts, hparts⟩ := Option.isSome_iff_exists.mp (ih (nextContent s) (by omega))
      simp [paginateFuel, h0, h2, hparts]

/-- The loop's result does not depend on surplus fuel. -/
theorem paginateFuel_mono :
    ∀ (f1 : Nat) (s : List Char) (parts : List (List Char)) (f2 : Nat), f1 ≤ f2 →
      paginateFuel f1 s = some parts → paginateFuel f2 s = some parts := by
  intro f1
  induction f1 with
  | zero =>
    intro s parts f2 _ h
    simp [paginateFuel] at h
  | succ f ih =>
    intro s parts f2 hle h
    obtain ⟨f2', rfl⟩ : ∃ f2', f2 = f2' + 1 := ⟨f2 - 1, by omega⟩
    by_cases h0 : s.length = 0
    · simp only [paginateFuel, h0, if_pos] at h ⊢
      simpa using h
    by_cases h2 : s.length ≤ MAX_MSG_LEN
    · simp only [paginateFuel, h0, h2] at h ⊢
      simpa using h
    · simp only [paginateFuel, h0, h2, if_false, if_neg, ite_false] at h ⊢
      cases hrec : paginateFuel f (nextContent s) with
      | none =>
        rw [hrec] at h
        simp at h
      | some ps =>
        rw [hrec] at h
        rw [ih (nextContent s) ps f2' (by omega) hrec]
        simpa using h

/-- The fuel `length + 5` used by `paginate_message` always suffices: the
loop terminates on every input and `paginate_message` returns its
(finite) chunk list. -/
theorem paginateFuel_paginate (s : List Char) :
    paginateFuel (s.length + 5) s = some (paginate_message s) := by
  have h := paginateFuel_isSome (s.length + 5) s (by have := pMeasure_le s; omega)
  obtain ⟨parts, hp⟩ := Option.isSome_iff_exists.mp h
  rw [paginate_message, hp]
  rfl

/-- One unfolding step of the loop. -/
theorem paginateFuel_succ (fuel : Nat) (s : List Char) :
    paginateFuel (fuel + 1) s =
      if s.length = 0 then some []
      else if s.length ≤ MAX_MSG_LEN then some [s]
      else
        match paginateFuel fuel (nextContent s) with
        | none => none
        | some parts => some ((s.take (cutIdx s) ++ fence) :: parts) := rfl

/-- Two successful runs of the loop at different fuels agree. -/
theorem paginateFuel_unique {f1 f2 : Nat} {s : List Char} {p q : List (List Char)}
    (h1 : paginateFuel f1 s = some p) (h2 : paginateFuel f2 s = some q) : p = q := by
  have m1 := paginateFuel_mono f1 s p (max f1 f2) (le_max_left _ _) h1
  have m2 := paginateFuel_mono f2 s q (max f1 f2) (le_max_right _ _) h2
  rw [m1] at m2
  exact Option.some.inj m2

/-- Empty content produces no chunks. -/
theorem paginate_message_nil : paginate_message [] = [] := rfl

/-- Content that fits in one message is emitted whole. -/
theorem paginate_message_small {s : List Char} (h0 : s ≠ [])
    (h : s.length ≤ MAX_MSG_LEN) : paginate_message s = [s] := by
  rw [paginate_message]
  have h5 : s.length + 5 = (s.length + 4) + 1 := by omega
  rw [h5]
  have hl0 : ¬ s.length = 0 := fun hc => h0 (List.length_eq_zero.mp hc)
  simp [paginateFuel, hl0, h]

/-- Oversized content: the first chunk is the content up to the cut with a
closing fence appended, and the rest is the pagination of the remaining
content. -/
theorem paginate_message_cons {s : List Char} (hs : MAX_MSG_LEN < s.length) :
    paginate_message s =
      (s.take (cutIdx s) ++ fence) :: paginate_message (nextContent s) := by
  have hnext := paginateFuel_paginate (nextContent s)
  have hml := pMeasure_le s
  have hlt := pMeasure_nextContent_lt hs
  have hsome := paginateFuel_isSome (s.length + 4) (nextContent s) (by omega)
  obtain ⟨q, hq⟩ := Option.isSome_iff_exists.mp hsome
  have hpq : q = paginate_message (nextContent s) := paginateFuel_unique hq hnext
  rw [paginate_message]
  have h5 : s.length + 5 = (s.length + 4) + 1 := by omega
  have hl0 : ¬ s.length = 0 := by omega
  have hl2 : ¬ s.length ≤ MAX_MSG_LEN := by omega
  rw [h5, paginateFuel_succ, if_neg hl0, if_neg hl2, hq, hpq]
  rfl

/-- The measure is positive. -/
theorem pMeasure_pos (s : List Char) : 0 < pMeasure s := by
  rw [pMeasure]
  by_cases hp : fenceNl.isPrefixOf s = true
  · obtain ⟨-, -, -, h3⟩ := fenceNl_chars hp
    obtain ⟨hlt, -⟩ := List.getElem?_eq_some.mp h3
    rw [if_pos hp]
    omega
  · rw [if_neg hp]
    omega

/-- The paginator never returns an empty chunk list on nonempty content. -/
theorem paginate_message_ne_nil {s : List Char} (h : s ≠ []) :
    paginate_message s ≠ [] := by
  by_cases h2 : s.length ≤ MAX_MSG_LEN
  · rw [paginate_message_small h h2]
    simp
  · rw [paginate_message_cons (Nat.lt_of_not_le h2)]
    simp

/-!
## Claim C10: termination of the paginator
-/

/-- Claim C10: `paginate_message` terminates and returns a finite chunk
list for every finite input string, even though a single iteration can
lengthen the remaining content — the loop, run with fuel `length + 5`,
always completes without exhausting the fuel, yielding
`paginate_message content`. -/
theorem paginate_message_total (content : List Char) :
    paginateFuel (content.length + 5) content = some (paginate_message content) :=
  paginateFuel_paginate content

/-!
## Claim C1: every chunk fits in a message
-/

/-- Every chunk of the pagination of `s` is at most `MAX_MSG_LEN` long
(strong induction on the loop measure). -/
theorem chunk_length_aux :
    ∀ (n : Nat) (s : List Char), pMeasure s ≤ n →
      ∀ p ∈ paginate_message s, p.length ≤ MAX_MSG_LEN := by
  intro n
  induction n with
  | zero =>
    intro s hs
    exact absurd hs (by have := pMeasure_pos s; omega)
  | succ n ih =>
    intro s hs p hp
    by_cases h0 : s = []
    · rw [h0, paginate_message_nil] at hp
      simp at hp
    by_cases h2 : s.length ≤ MAX_MSG_LEN
    · rw [paginate_message_small h0 h2] at hp
      rw [List.mem_singleton.mp hp]
      exact h2
    · have hbig : MAX_MSG_LEN < s.length := Nat.lt_of_not_le h2
      rw [paginate_message_cons hbig] at hp
      rcases List.mem_cons.mp hp with rfl | hp'
      · have hc := cutIdx_le s
        have hM : MAX_MSG_LEN = 2000 := rfl
        have hf : fence.length = 3 := rfl
        rw [List.length_append, List.length_take, hf]
        omega
      · exact ih (nextContent s)
          (by have := pMeasure_nextContent_lt hbig; omega) p hp'

/-- Claim C1: every element of the list returned by `paginate_message` has
length at most `MAX_MSG_LEN` (2000) characters, the appended closing fence
and prepended reopening fence included. -/
theorem paginate_message_chunk_length (content : List Char) :
    ∀ p ∈ paginate_message content, p.length ≤ MAX_MSG_LEN :=
  chunk_length_aux (pMeasure content) content (Nat.le_refl _)

/-- The first element of a nonempty list is a member. -/
theorem getD_zero_mem {l : List (List Char)} (h : l ≠ []) : l.getD 0 [] ∈ l := by
  cases l with
  | nil => exact absurd rfl h
  | cons a t => simp

/-- The counterexample input has 2001 characters. -/
theorem cexUnbalanced_length : cexUnbalanced.length = 2001 := by
  rw [cexUnbalanced, List.length_replicate]

/-- The 2001-character counterexample input is nonempty. -/
theorem cexUnbalanced_ne_nil : cexUnbalanced ≠ [] := by
  intro h
  have h0 := congrArg List.length h
  rw [cexUnbalanced_length] at h0
  simp at h0

/-- Witness for C1 at a concrete 2001-character input: the first emitted
chunk respects the bound. -/
theorem paginate_message_chunk_length_witness :
    ((paginate_message cexUnbalanced).getD 0 []).length ≤ MAX_MSG_LEN :=
  paginate_message_chunk_length cexUnbalanced _
    (getD_zero_mem (paginate_message_ne_nil cexUnbalanced_ne_nil))

/-!
## Claim C2: where the cut lands
-/

/-- Claim C2: when the remaining content is longer than 2000 characters the
paginator cuts at `specCut`: the nearest paragraph break found backward
from position 1997, else the nearest space in that range, else the hard
boundary 1997 — the first emitted chunk is the content up to that position
with the closing fence appended. -/
theorem paginate_message_cut_spec (s : List Char) (hs : MAX_MSG_LEN < s.length) :
    (paginate_message s).head? = some (s.take (specCut s) ++ fence) := by
  rw [paginate_message_cons hs, List.head?_cons, cutIdx_eq_specCut]

/-- The 2007-character witness input is oversized. -/
theorem witLateBreak_oversized : MAX_MSG_LEN < witLateBreak.length := by
  have h : witLateBreak.length = 2007 := by
    simp only [witLateBreak, List.length_append, List.length_replicate, List.length_cons]
  rw [h]
  decide

/-- Witness for C2 at a 2007-character input whose only paragraph break is
at position 1995. -/
theorem paginate_message_cut_spec_witness :
    MAX_MSG_LEN < witLateBreak.length ∧
      (paginate_message witLateBreak).head? =
        some (witLateBreak.take (specCut witLateBreak) ++ fence) :=
  ⟨witLateBreak_oversized, paginate_message_cut_spec witLateBreak witLateBreak_oversized⟩

/-!
## Claim C3: what the concatenation of the chunks preserves

The counterexample input `cexDropped` loses its paragraph break: the two
newline characters at the cut are dropped, so the concatenation of the
chunks does not contain the original string even as a subsequence.
-/

/-- The counterexample input has 2052 characters. -/
theorem cexDropped_length : cexDropped.length = 2052 := by
  simp only [cexDropped, List.length_append, List.length_replicate, List.length_cons]

/-- The character at position 100 is the first newline of the break. -/
theorem cexDropped_at_100 : cexDropped[100]? = some '\n' := by
  simp only [cexDropped]
  rw [List.getElem?_append, List.length_replicate, if_neg (by omega)]
  have h : (100 : Nat) - 100 = 0 := by omega
  rw [h, List.getElem?_cons_zero]

/-- The character at position 101 is the second newline of the break. -/
theorem cexDropped_at_101 : cexDropped[101]? = some '\n' := by
  simp only [cexDropped]
  rw [List.getElem?_append, List.length_replicate, if_neg (by omega)]
  have h : (101 : Nat) - 100 = 0 + 1 := by omega
  rw [h, List.getElem?_cons_succ, List.getElem?_cons_zero]

/-- Past the break the input holds only `b`s (or ends). -/
theorem cexDropped_no_nl_after (j : Nat) (hj : 102 ≤ j) :
    cexDropped[j]? ≠ some '\n' := by
  simp only [cexDropped]
  rw [List.getElem?_append, List.length_replicate, if_neg (by omega)]
  have h2 : j - 100 = (j - 102) + 1 + 1 := by omega
  rw [h2, List.getElem?_cons_succ, List.getElem?_cons_succ, List.getElem?_replicate]
  split
  · intro hc
    exact absurd (Option.some.inj hc) (by decide)
  · intro hc
    simp at hc

/-- Position 100 carries the only paragraph break of the input. -/
theorem cexDropped_specParaCut : specParaCut cexDropped = some 100 := by
  have hM : MAX_MSG_LEN = 2000 := rfl
  have hP : ParaBreakAt cexDropped 100 := ⟨cexDropped_at_100, cexDropped_at_101⟩
  have hG : Nat.findGreatest (ParaBreakAt cexDropped) (MAX_MSG_LEN - 3 - 2) = 100 := by
    rw [Nat.findGreatest_eq_iff]
    refine ⟨by omega, fun _ => hP, ?_⟩
    intro j h100 h1995 hPj
    obtain ⟨hj1, hj2⟩ := hPj
    by_cases hj : j = 101
    · subst hj
      exact cexDropped_no_nl_after 102 (by omega) hj2
    · exact cexDropped_no_nl_after j (by omega) hj1
  rw [specParaCut]
  simp only [hG]
  rw [if_pos hP]

/-- The paginator cuts the counterexample at position 100. -/
theorem cexDropped_cutIdx : cutIdx cexDropped = 100 := by
  rw [cutIdx_eq_specCut, specCut, cexDropped_specParaCut]

/-- After the cut, the remaining content is the reopening fence plus the
`b`s: the two newline characters are skipped. -/
theorem cexDropped_next :
    nextContent cexDropped = fenceNl ++ List.replicate 1950 'b' := by
  have hs : MAX_MSG_LEN < cexDropped.length := by
    rw [cexDropped_length]
    decide
  have hA : (List.replicate 100 'a').length = 100 := List.length_replicate 100 'a'
  have hdrop : cexDropped.drop (100 + 2) = List.replicate 1950 'b' := by
    simp only [cexDropped]
    rw [show (100 : Nat) + 2 = (List.replicate 100 'a').length + 2 from by rw [hA],
      List.drop_append, List.drop_succ_cons, List.drop_succ_cons, List.drop_zero]
  rw [nextContent_eq hs, cexDropped_cutIdx, skipIdx, if_pos cexDropped_at_100, hdrop]

/-- The pagination of the counterexample, computed. -/
theorem cexDropped_paginate :
    paginate_message cexDropped =
      [List.replicate 100 'a' ++ fence, fenceNl ++ List.replicate 1950 'b'] := by
  have hs : MAX_MSG_LEN < cexDropped.length := by
    rw [cexDropped_length]
    decide
  rw [paginate_message_cons hs, cexDropped_cutIdx, cexDropped_next]
  have htake : cexDropped.take 100 = List.replicate 100 'a' := by
    simp only [cexDropped]
    exact List.take_left' (List.length_replicate 100 'a')
  have hlen : (fenceNl ++ List.replicate 1950 'b').length = 1954 := by
    rw [List.length_append, List.length_replicate]
    rfl
  have hne : fenceNl ++ List.replicate 1950 'b' ≠ [] := by
    intro h
    have h0 := congrArg List.length h
    rw [hlen] at h0
    simp at h0
  rw [htake, paginate_message_small hne (by rw [hlen]; decide)]

/-- Counterexample to C3 as stated: the concatenation of the chunks of
`cexDropped` does not contain `cexDropped` even as a subsequence — the two
newline characters at the cut were dropped, so the output is not the input
with only fence markers inserted. -/
theorem paginate_message_drops_characters :
    ¬ List.Sublist cexDropped ((paginate_message cexDropped).flatten) := by
  intro hsub
  have hle := hsub.count_le '\n'
  have h1 : List.count '\n' cexDropped = 2 := by
    simp only [cexDropped, List.count_append, List.count_cons, List.count_replicate]
    decide
  have h2 : List.count '\n' ((paginate_message cexDropped).flatten) = 1 := by
    rw [cexDropped_paginate]
    simp only [List.flatten_cons, List.flatten_nil, List.count_append, List.append_nil,
      List.count_replicate]
    decide
  rw [h1, h2] at hle
  omega

/-!
The amended C3: concatenating the chunks reconstructs the input modulo the
inserted closing/reopening fence markers at the cut points **and** the
separator characters dropped at each cut (the character at the cut and the
one after it when the cut lands on a newline, the single space when it
lands on a space, nothing otherwise), with ordering preserved.
-/

/-- Splitting a list at a position holding two known characters. -/
theorem decomp_two {s : List Char} {k : Nat} {a b : Char}
    (ha : s[k]? = some a) (hb : s[k + 1]? = some b) :
    s = s.take k ++ ([a, b] ++ s.drop (k + 2)) := by
  obtain ⟨hk, ha'⟩ := List.getElem?_eq_some.mp ha
  obtain ⟨hk1, hb'⟩ := List.getElem?_eq_some.mp hb
  have hd : s.drop k = a :: b :: s.drop (k + 2) := by
    rw [List.drop_eq_getElem_cons hk, ha']
    congr 1
    rw [List.drop_eq_getElem_cons hk1, hb']
  conv_lhs => rw [← List.take_append_drop k s, hd]
  rfl

/-- Splitting a list at a position holding one known character. -/
theorem decomp_one {s : List Char} {k : Nat} {a : Char} (ha : s[k]? = some a) :
    s = s.take k ++ ([a] ++ s.drop (k + 1)) := by
  obtain ⟨hk, ha'⟩ := List.getElem?_eq_some.mp ha
  have hd : s.drop k = a :: s.drop (k + 1) := by
    rw [List.drop_eq_getElem_cons hk, ha']
  conv_lhs => rw [← List.take_append_drop k s, hd]
  rfl

/-- The pagination of any content reassembles it (strong induction on the
loop measure). -/
theorem reassembles_aux :
    ∀ (n : Nat) (s : List Char), pMeasure s ≤ n → Reassembles s (paginate_message s) := by
  intro n
  induction n with
  | zero =>
    intro s hs
    exact absurd hs (by have := pMeasure_pos s; omega)
  | succ n ih =>
    intro s hs
    by_cases h0 : s = []
    · rw [h0, paginate_message_nil]
      exact Reassembles.nil
    by_cases h2 : s.length ≤ MAX_MSG_LEN
    · rw [paginate_message_small h0 h2]
      exact Reassembles.last s
    · have hbig : MAX_MSG_LEN < s.length := Nat.lt_of_not_le h2
      have hM : MAX_MSG_LEN = 2000 := rfl
      have hcut := cutIdx_le s
      have hrec0 : pMeasure (nextContent s) ≤ n := by
        have := pMeasure_nextContent_lt hbig
        omega
      rw [paginate_message_cons hbig]
      by_cases hnl : s[cutIdx s]? = some '\n'
      · have hk1 : cutIdx s + 1 < s.length := by omega
        obtain ⟨c2, hb⟩ : ∃ c2, s[cutIdx s + 1]? = some c2 :=
          ⟨_, List.getElem?_eq_getElem hk1⟩
        have hskip : skipIdx s (cutIdx s) = cutIdx s + 2 := by
          rw [skipIdx, if_pos hnl]
        have hnext : nextContent s = fenceNl ++ s.drop (cutIdx s + 2) := by
          rw [nextContent_eq hbig, hskip]
        have hrec : Reassembles (fenceNl ++ s.drop (cutIdx s + 2))
            (paginate_message (nextContent s)) := by
          rw [← hnext]
          exact ih (nextContent s) hrec0
        have hcut' := Reassembles.cut (s.take (cutIdx s)) ['\n', c2]
          (s.drop (cutIdx s + 2)) (paginate_message (nextContent s))
          (Or.inr (Or.inr ⟨c2, rfl⟩)) hrec
        rw [← decomp_two hnl hb] at hcut'
        exact hcut'
      by_cases hsp : s[cutIdx s]? = some ' '
      · have hskip : skipIdx s (cutIdx s) = cutIdx s + 1 := by
          rw [skipIdx, if_neg hnl, if_pos hsp]
        have hnext : nextContent s = fenceNl ++ s.drop (cutIdx s + 1) := by
          rw [nextContent_eq hbig, hskip]
        have hrec : Reassembles (fenceNl ++ s.drop (cutIdx s + 1))
            (paginate_message (nextContent s)) := by
          rw [← hnext]
          exact ih (nextContent s) hrec0
        have hcut' := Reassembles.cut (s.take (cutIdx s)) [' ']
          (s.drop (cutIdx s + 1)) (paginate_message (nextContent s))
          (Or.inr (Or.inl rfl)) hrec
        rw [← decomp_one hsp] at hcut'
        exact hcut'
      · have hskip : skipIdx s (cutIdx s) = cutIdx s := by
          rw [skipIdx, if_neg hnl, if_neg hsp]
        have hnext : nextContent s = fenceNl ++ s.drop (cutIdx s) := by
          rw [nextContent_eq hbig, hskip]
        have hrec : Reassembles (fenceNl ++ s.drop (cutIdx s))
            (paginate_message (nextContent s)) := by
          rw [← hnext]
          exact ih (nextContent s) hrec0
        have hcut' := Reassembles.cut (s.take (cutIdx s)) []
          (s.drop (cutIdx s)) (paginate_message (nextContent s))
          (Or.inl rfl) hrec
        have hdecomp : s = s.take (cutIdx s) ++ ([] ++ s.drop (cutIdx s)) := by
          rw [List.nil_append, List.take_append_drop]
        rw [← hdecomp] at hcut'
        exact hcut'

/-- Amended C3: for every string, the chunk list returned by
`paginate_message` reassembles the string — at every cut a closing fence is
appended, a reopening fence is prepended to the remainder, the separator
characters at the cut (two when the cut lands on a newline, one when it
lands on a space, none otherwise) are dropped, and nothing else of the
string is dropped or reordered. -/
theorem paginate_message_reassembles (content : List Char) :
    Reassembles content (paginate_message content) :=
  reassembles_aux (pMeasure content) content (Nat.le_refl _)

/-!
## Claim C4: fence balance of the chunks

The counterexample: 2001 `a`s have no fence at all (balanced), but the
first chunk gets a closing fence appended even though the cut is not
inside a fence, so that chunk holds exactly one fence delimiter.
-/

/-- An `a` contributes nothing to the fence count. -/
theorem fenceCount_cons_a (rest : List Char) :
    fenceCount ('a' :: rest) = fenceCount rest := rfl

/-- A run of `a`s holds no fence. -/
theorem fenceCount_replicate_a (n : Nat) :
    fenceCount (List.replicate n 'a') = 0 := by
  induction n with
  | zero => rfl
  | succ n ih => rw [List.replicate_succ, fenceCount_cons_a, ih]

/-- A run of `a`s contributes nothing to the fence count of what follows. -/
theorem fenceCount_replicate_a_append (n : Nat) (l : List Char) :
    fenceCount (List.replicate n 'a' ++ l) = fenceCount l := by
  induction n with
  | zero => rw [List.replicate_zero, List.nil_append]
  | succ n ih => rw [List.replicate_succ, List.cons_append, fenceCount_cons_a, ih]

/-- No character of the all-`a` input is a newline or a space. -/
theorem cexUnbalanced_no_break (j : Nat) (c : Char) (hc : cexUnbalanced[j]? = some c) :
    c = 'a' := by
  rw [cexUnbalanced, List.getElem?_replicate] at hc
  split at hc
  · exact (Option.some.inj hc).symm
  · exact absurd hc (by simp)

/-- The all-`a` input has no paragraph break in range. -/
theorem cexUnbalanced_specParaCut : specParaCut cexUnbalanced = none := by
  rw [specParaCut, if_neg]
  intro hP
  obtain ⟨h1, -⟩ := hP
  exact absurd (cexUnbalanced_no_break _ _ h1) (by decide)

/-- The all-`a` input has no space in range. -/
theorem cexUnbalanced_specSpaceCut : specSpaceCut cexUnbalanced = none := by
  rw [specSpaceCut, if_neg]
  intro hP
  exact absurd (cexUnbalanced_no_break _ _ hP) (by decide)

/-- The all-`a` input is cut at the hard boundary. -/
theorem cexUnbalanced_cutIdx : cutIdx cexUnbalanced = 1997 := by
  rw [cutIdx_eq_specCut, specCut, cexUnbalanced_specParaCut, cexUnbalanced_specSpaceCut]
  rfl

/-- The character at the hard cut is an `a`, so nothing is skipped. -/
theorem cexUnbalanced_at_1997 : cexUnbalanced[(1997 : Nat)]? = some 'a' := by
  rw [cexUnbalanced, List.getElem?_replicate, if_pos (by omega)]

/-- The pagination of the all-`a` input, computed. -/
theorem cexUnbalanced_paginate :
    paginate_message cexUnbalanced =
      [List.replicate 1997 'a' ++ fence, fenceNl ++ List.replicate 4 'a'] := by
  have hs : MAX_MSG_LEN < cexUnbalanced.length := by
    rw [cexUnbalanced_length]
    decide
  have hskip : skipIdx cexUnbalanced 1997 = 1997 := by
    rw [skipIdx, if_neg, if_neg]
    · intro hc
      exact some_char_ne (by decide) cexUnbalanced_at_1997 hc
    · intro hc
      exact some_char_ne (by decide) cexUnbalanced_at_1997 hc
  have hnext : nextContent cexUnbalanced = fenceNl ++ List.replicate 4 'a' := by
    rw [nextContent_eq hs, cexUnbalanced_cutIdx, hskip, cexUnbalanced, List.drop_replicate]
  have htake : cexUnbalanced.take 1997 = List.replicate 1997 'a' := by
    rw [cexUnbalanced, List.take_replicate]
    congr 1
  have hlen : (fenceNl ++ List.replicate 4 'a').length = 8 := by
    rw [List.length_append, List.length_replicate]
    rfl
  have hne : fenceNl ++ List.replicate 4 'a' ≠ [] := by
    intro h
    have h0 := congrArg List.length h
    rw [hlen] at h0
    simp at h0
  rw [paginate_message_cons hs, cexUnbalanced_cutIdx, hnext, htake,
    paginate_message_small hne (by rw [hlen]; decide)]

/-- Counterexample to C4 as stated: the input `cexUnbalanced` is
fence-balanced (it has no fence delimiter at all), yet the first chunk
`paginate_message` returns for it holds exactly one fence delimiter — the
unconditionally appended closing fence — and so is not balanced. -/
theorem paginate_message_chunk_unbalanced :
    fenceBalanced cexUnbalanced ∧
      ¬ fenceBalanced ((paginate_message cexUnbalanced).getD 0 []) := by
  constructor
  · rw [fenceBalanced, cexUnbalanced, fenceCount_replicate_a]
  · rw [cexUnbalanced_paginate, List.getD_cons_zero, fenceBalanced,
      fenceCount_replicate_a_append]
    decide

/-!
The amended C4: the paginator maintains the fence *markers* — every chunk
except the last ends with the closing fence and every chunk except the
first starts with the reopening fence delimiter — but an individual chunk
need not be fence-balanced (the closing fence is appended whether or not
the cut lands inside a fenced block).
-/

/-- `isPrefixOf` as an equation. -/
theorem isPrefixOf_iff_append {p : List Char} :
    ∀ {s : List Char}, p.isPrefixOf s = true ↔ ∃ t, s = p ++ t := by
  induction p with
  | nil =>
    intro s
    simp [List.isPrefixOf]
  | cons a as ih =>
    intro s
    cases s with
    | nil => simp [List.isPrefixOf]
    | cons b bs =>
      simp only [List.isPrefixOf, Bool.and_eq_true, beq_iff_eq, ih, List.cons_append,
        List.cons.injEq]
      constructor
      · rintro ⟨rfl, t, rfl⟩
        exact ⟨t, rfl, rfl⟩
      · rintro ⟨t, rfl, rfl⟩
        exact ⟨rfl, t, rfl⟩

/-- The first three characters of a string that starts with the closing
fence delimiter. -/
theorem fence_chars {s : List Char} (h : fence.isPrefixOf s = true) :
    s[0]? = some '`' ∧ s[1]? = some '`' ∧ s[2]? = some '`' := by
  have hf : fence = ['`', '`', '`'] := rfl
  rw [hf] at h
  match s, h with
  | [], h => simp [List.isPrefixOf] at h
  | [a], h => simp [List.isPrefixOf] at h
  | [a, b], h => simp [List.isPrefixOf] at h
  | a :: b :: c' :: rest, h =>
    simp only [List.isPrefixOf, Bool.and_eq_true, beq_iff_eq] at h
    obtain ⟨rfl, rfl, rfl, -⟩ := h
    refine ⟨?_, ?_, ?_⟩ <;> simp

/-- On fence-headed content the cut is never inside the leading fence
delimiter. -/
theorem cutIdx_ge_three_of_fence {s : List Char} (hpre : fence.isPrefixOf s = true) :
    3 ≤ cutIdx s := by
  obtain ⟨h0, h1, h2⟩ := fence_chars hpre
  have hM : MAX_MSG_LEN = 2000 := rfl
  rcases cutIdx_cases s with ⟨hn, -⟩ | hsp | hhard
  · by_contra hlt
    push_neg at hlt
    have h012 : cutIdx s = 0 ∨ cutIdx s = 1 ∨ cutIdx s = 2 := by omega
    rcases h012 with he | he | he <;> rw [he] at hn
    · exact some_char_ne (by decide) h0 hn
    · exact some_char_ne (by decide) h1 hn
    · exact some_char_ne (by decide) h2 hn
  · by_contra hlt
    push_neg at hlt
    have h012 : cutIdx s = 0 ∨ cutIdx s = 1 ∨ cutIdx s = 2 := by omega
    rcases h012 with he | he | he <;> rw [he] at hsp
    · exact some_char_ne (by decide) h0 hsp
    · exact some_char_ne (by decide) h1 hsp
    · exact some_char_ne (by decide) h2 hsp
  · omega

/-- Every chunk of fence-headed content is fence-headed. -/
theorem paginate_fence_headed_aux :
    ∀ (n : Nat) (s : List Char), pMeasure s ≤ n → fence.isPrefixOf s = true →
      ∀ p ∈ paginate_message s, fence.isPrefixOf p = true := by
  intro n
  induction n with
  | zero =>
    intro s hs
    exact absurd hs (by have := pMeasure_pos s; omega)
  | succ n ih =>
    intro s hs hpre p hp
    by_cases h0 : s = []
    · rw [h0, paginate_message_nil] at hp
      simp at hp
    by_cases h2 : s.length ≤ MAX_MSG_LEN
    · rw [paginate_message_small h0 h2] at hp
      rw [List.mem_singleton.mp hp]
      exact hpre
    · have hbig : MAX_MSG_LEN < s.length := Nat.lt_of_not_le h2
      rw [paginate_message_cons hbig] at hp
      rcases List.mem_cons.mp hp with rfl | hp'
      · obtain ⟨t, rfl⟩ := isPrefixOf_iff_append.mp hpre
        have hk3 := cutIdx_ge_three_of_fence hpre
        have hkeq : cutIdx (fence ++ t) = fence.length + (cutIdx (fence ++ t) - 3) := by
          have hf : fence.length = 3 := rfl
          omega
        rw [hkeq, List.take_append, List.append_assoc]
        exact isPrefixOf_append_self _ _
      · have hrec0 : pMeasure (nextContent s) ≤ n := by
          have := pMeasure_nextContent_lt hbig
          omega
        have hnpre : fence.isPrefixOf (nextContent s) = true := by
          rw [nextContent_eq hbig]
          have hfn : fenceNl = fence ++ ['\n'] := rfl
          rw [hfn, List.append_assoc]
          exact isPrefixOf_append_self _ _
        exact ih (nextContent s) hrec0 hnpre p hp'

/-- The tail of any list built by appending the closing fence carries it as
a suffix. -/
theorem isSuffixOf_append_self (l t : List Char) : t.isSuffixOf (l ++ t) = true :=
  List.isSuffixOf_iff_suffix.mpr (List.suffix_append l t)

/-- The remaining content after an oversized cut is nonempty. -/
theorem nextContent_ne_nil {s : List Char} (hbig : MAX_MSG_LEN < s.length) :
    nextContent s ≠ [] := by
  rw [nextContent_eq hbig]
  intro hc
  have h0 := congrArg List.length hc
  rw [List.length_append] at h0
  have hf : fenceNl.length = 4 := rfl
  rw [hf] at h0
  simp at h0

/-- Non-final chunks end with the closing fence; non-first chunks start
with the fence delimiter (strong induction on the loop measure). -/
theorem fence_markers_aux :
    ∀ (n : Nat) (s : List Char), pMeasure s ≤ n →
      (∀ p ∈ (paginate_message s).dropLast, fence.isSuffixOf p = true) ∧
      (∀ p ∈ (paginate_message s).tail, fence.isPrefixOf p = true) := by
  intro n
  induction n with
  | zero =>
    intro s hs
    exact absurd hs (by have := pMeasure_pos s; omega)
  | succ n ih =>
    intro s hs
    by_cases h0 : s = []
    · rw [h0, paginate_message_nil]
      exact ⟨fun p hp => by simp at hp, fun p hp => by simp at hp⟩
    by_cases h2 : s.length ≤ MAX_MSG_LEN
    · rw [paginate_message_small h0 h2]
      rw [List.dropLast_single]
      exact ⟨fun p hp => by simp at hp, fun p hp => by simp at hp⟩
    · have hbig : MAX_MSG_LEN < s.length := Nat.lt_of_not_le h2
      have hrec0 : pMeasure (nextContent s) ≤ n := by
        have := pMeasure_nextContent_lt hbig
        omega
      have hnpre : fence.isPrefixOf (nextContent s) = true := by
        rw [nextContent_eq hbig]
        have hfn : fenceNl = fence ++ ['\n'] := rfl
        rw [hfn, List.append_assoc]
        exact isPrefixOf_append_self _ _
      have hne := paginate_message_ne_nil (nextContent_ne_nil hbig)
      rw [paginate_message_cons hbig]
      constructor
      · intro p hp
        rw [List.dropLast_cons_of_ne_nil hne] at hp
        rcases List.mem_cons.mp hp with rfl | hp'
        · exact isSuffixOf_append_self _ _
        · exact (ih (nextContent s) hrec0).1 p hp'
      · intro p hp
        rw [List.tail_cons] at hp
        exact paginate_fence_headed_aux (pMeasure (nextContent s)) (nextContent s)
          (Nat.le_refl _) hnpre p hp

/-- Amended C4: every chunk except the last ends with the appended closing
fence `"```"`, and every chunk except the first begins with the fence
delimiter of the prepended reopening fence; individual chunks are not
guaranteed to be fence-balanced. -/
theorem paginate_message_fence_markers (content : List Char) :
    (∀ p ∈ (paginate_message content).dropLast, fence.isSuffixOf p = true) ∧
    (∀ p ∈ (paginate_message content).tail, fence.isPrefixOf p = true) :=
  fence_markers_aux (pMeasure content) content (Nat.le_refl _)

/-- Witness for the amended C4 on the concrete 2001-character input: its
first chunk ends with the closing fence and its second chunk starts with
the fence delimiter. -/
theorem paginate_message_fence_markers_witness :
    fence.isSuffixOf ((paginate_message cexUnbalanced).getD 0 []) = true ∧
      fence.isPrefixOf ((paginate_message cexUnbalanced).getD 1 []) = true :=
  ⟨(paginate_message_fence_markers cexUnbalanced).1 _
      (by
        rw [cexUnbalanced_paginate]
        simp only [List.getD_cons_zero, List.dropLast_cons₂, List.dropLast_single,
          List.mem_singleton]),
    (paginate_message_fence_markers cexUnbalanced).2 _
      (by
        rw [cexUnbalanced_paginate]
        simp only [List.getD_cons_succ, List.getD_cons_zero, List.tail_cons,
          List.mem_singleton])⟩

/-!
## Claim C5: webhook target resolution
-/

/-- Claim C5 (evaluating the code): an HTTP/HTTPS reference is returned
as-is, a secretsmanager ARN resolves to the stored secret, an ARN of any
other service raises `NotImplementedError`, and `"ftp://x"` raises
`ValueError` — but the reference `"arnold"`, which is neither an ARN (no
`"arn:"`) nor an HTTP URL, slips past the validation (which only tests the
prefix `"arn"`) and reaches the `RuntimeError` branch whose message
asserts it cannot be reached, instead of the `ValueError` the claim and
the validation intend. -/
theorem get_webhook_url_resolution :
    get_webhook_url (fun _ => "SECRET".data) "https://x".data =
        WebhookResult.url "https://x".data ∧
      get_webhook_url (fun _ => "SECRET".data)
          "arn:aws:secretsmanager:us-east-1:1:secret:hook".data =
        WebhookResult.url "SECRET".data ∧
      get_webhook_url (fun _ => "SECRET".data) "arn:aws:sns:us-east-1:1:topic".data =
        WebhookResult.notImplementedError ∧
      get_webhook_url (fun _ => "SECRET".data) "ftp://x".data =
        WebhookResult.valueError ∧
      get_webhook_url (fun _ => "SECRET".data) "arnold".data =
        WebhookResult.runtimeError :=
  ⟨rfl, rfl, rfl, rfl, rfl⟩

/-!
## Claim C6: pruning the seen list
-/

/-- Claim C6: when the seen list exceeds `MAX_ARTICLES_SEEN = 30` entries,
the persisted list is a suffix of it of length exactly 30 — the last 30
entries in their original relative order, the oldest dropped — and after
every pruning step the persisted list has at most 30 entries. -/
theorem prune_articles_seen_keeps_last (l : List (List Char)) :
    (l.length > MAX_ARTICLES_SEEN →
      prune_articles_seen l <:+ l ∧
        (prune_articles_seen l).length = MAX_ARTICLES_SEEN) ∧
      (prune_articles_seen l).length ≤ MAX_ARTICLES_SEEN := by
  have hM : MAX_ARTICLES_SEEN = 30 := rfl
  constructor
  · intro hgt
    rw [prune_articles_seen, if_pos hgt]
    exact ⟨List.drop_suffix _ _, by rw [List.length_drop]; omega⟩
  · by_cases h : l.length > MAX_ARTICLES_SEEN
    · rw [prune_articles_seen, if_pos h, List.length_drop]
      omega
    · rw [prune_articles_seen, if_neg h]
      omega

/-- Witness for C6 on a concrete 31-entry list. -/
theorem prune_articles_seen_keeps_last_witness :
    seen31.length > MAX_ARTICLES_SEEN ∧
      prune_articles_seen seen31 <:+ seen31 ∧
        (prune_articles_seen seen31).length = MAX_ARTICLES_SEEN :=
  ⟨by decide, (prune_articles_seen_keeps_last seen31).1 (by decide)⟩

/-!
## The pipeline: unfolding lemmas
-/

/-- A fetch failure short-circuits the handler. -/
theorem lambda_handler_none (san : List Char → List Char) (seen : List (List Char)) :
    lambda_handler san none seen = ⟨some 500, none, false, [], [], 0⟩ := rfl

/-- The handler on a fetched feed, unfolded. -/
theorem lambda_handler_some_eq (san : List Char → List Char) (items : List FeedItem)
    (seen : List (List Char)) :
    lambda_handler san (some items) seen =
      if (process_feed_items san items.reverse seen).isEmpty then
        ⟨none, none, false, [], [], 0⟩
      else
        ⟨none,
          some (prune_articles_seen
            ((publish_articles (process_feed_items san items.reverse seen) seen).2.1)),
          true,
          (publish_articles (process_feed_items san items.reverse seen) seen).1,
          (process_feed_items san items.reverse seen).map Prod.fst,
          (publish_articles (process_feed_items san items.reverse seen) seen).2.2⟩ := rfl

/-- The publish loop appends exactly the candidates' guids, in order, to
the seen list, and counts the candidates. -/
theorem publish_articles_spec :
    ∀ (articles : List (List Char × List Char)) (seen : List (List Char)),
      (publish_articles articles seen).2.1 = seen ++ articles.map Prod.fst ∧
        (publish_articles articles seen).2.2 = articles.length := by
  intro articles
  induction articles with
  | nil =>
    intro seen
    simp [publish_articles]
  | cons gc rest ih =>
    intro seen
    obtain ⟨g, c⟩ := gc
    simp only [publish_articles]
    obtain ⟨h1, h2⟩ := ih (seen ++ [g])
    rw [h1, h2]
    constructor
    · rw [List.append_assoc]
      rfl
    · rw [List.length_cons]

/-- No produced candidate carries a guid already in the seen list. -/
theorem process_not_in_seen (san : List Char → List Char) :
    ∀ (items : List FeedItem) (seen : List (List Char)),
      ∀ c ∈ process_feed_items san items seen, c.1 ∉ seen := by
  intro items
  induction items with
  | nil =>
    intro seen c hc
    simp [process_feed_items] at hc
  | cons it rest ih =>
    intro seen c hc
    simp only [process_feed_items] at hc
    by_cases h1 : san it.guid ∈ seen
    · rw [if_pos h1] at hc
      exact ih seen c hc
    · rw [if_neg h1] at hc
      by_cases h2 : filter_item (san it.title) (san (pyRstrip (br_sub it.description))) = true
      · rw [if_pos h2] at hc
        exact ih seen c hc
      · rw [if_neg h2] at hc
        rcases List.mem_cons.mp hc with rfl | hc'
        · exact h1
        · exact ih seen c hc'

/-- On a feed whose items are all unseen and unfiltered, the candidates are
exactly the items, in order, rendered. -/
theorem process_all_eligible (san : List Char → List Char) :
    ∀ (items : List FeedItem) (seen : List (List Char)),
      (∀ it ∈ items, san it.guid ∉ seen ∧
        filter_item (san it.title) (san (pyRstrip (br_sub it.description))) = false) →
      process_feed_items san items seen =
        items.map (fun it => (san it.guid,
          buildContent (san it.title) (san it.guid)
            (san (pyRstrip (br_sub it.description))))) := by
  intro items
  induction items with
  | nil =>
    intro seen h
    rfl
  | cons it rest ih =>
    intro seen h
    obtain ⟨h1, h2⟩ := h it (List.mem_cons_self it rest)
    simp only [process_feed_items]
    rw [if_neg h1, if_neg (by rw [h2]; simp), List.map_cons,
      ih seen (fun it' hit' => h it' (List.mem_cons_of_mem _ hit'))]

/-- Re-running the filter against any seen list containing both the old
seen list and all produced guids yields no candidates. -/
theorem process_superset_nil (san : List Char → List Char) :
    ∀ (items : List FeedItem) (seen S : List (List Char)),
      (∀ g ∈ seen, g ∈ S) →
      (∀ g ∈ (process_feed_items san items seen).map Prod.fst, g ∈ S) →
      process_feed_items san items S = [] := by
  intro items
  induction items with
  | nil =>
    intro seen S h1 h2
    rfl
  | cons it rest ih =>
    intro seen S hseen hout
    simp only [process_feed_items]
    by_cases h1 : san it.guid ∈ seen
    · rw [if_pos (hseen _ h1)]
      refine ih seen S hseen ?_
      intro g hg
      apply hout
      simp only [process_feed_items]
      rw [if_pos h1]
      exact hg
    · by_cases h2 : filter_item (san it.title) (san (pyRstrip (br_sub it.description))) = true
      · have hout' : ∀ g ∈ (process_feed_items san rest seen).map Prod.fst, g ∈ S := by
          intro g hg
          apply hout
          simp only [process_feed_items]
          rw [if_neg h1, if_pos h2]
          exact hg
        by_cases hS : san it.guid ∈ S
        · rw [if_pos hS]
          exact ih seen S hseen hout'
        · rw [if_neg hS, if_pos h2]
          exact ih seen S hseen hout'
      · have hg : san it.guid ∈ S := by
          apply hout
          simp only [process_feed_items]
          rw [if_neg h1, if_neg h2, List.map_cons]
          exact List.mem_cons_self _ _
        rw [if_pos hg]
        refine ih seen S hseen ?_
        intro g hgg
        apply hout
        simp only [process_feed_items]
        rw [if_neg h1, if_neg h2, List.map_cons]
        exact List.mem_cons_of_mem _ hgg

/-!
## Claim C7: chronological publish order
-/

/-- Claim C7: the handler reverses the newest-first feed before filtering,
and when no item shares an identifier with the seen list (and none is
filtered), the published guid sequence is the reversed — chronological,
oldest-first — item sequence. -/
theorem lambda_handler_chronological (san : List Char → List Char)
    (items : List FeedItem) (seen : List (List Char))
    (h : ∀ it ∈ items, san it.guid ∉ seen ∧
      filter_item (san it.title) (san (pyRstrip (br_sub it.description))) = false) :
    (lambda_handler san (some items) seen).publishedGuids =
      items.reverse.map (fun it => san it.guid) := by
  have h' : ∀ it ∈ items.reverse, san it.guid ∉ seen ∧
      filter_item (san it.title) (san (pyRstrip (br_sub it.description))) = false :=
    fun it hit => h it (List.mem_reverse.mp hit)
  have hproc := process_all_eligible san items.reverse seen h'
  rw [lambda_handler_some_eq]
  by_cases he : (process_feed_items san items.reverse seen).isEmpty = true
  · rw [if_pos he]
    have hnil := List.isEmpty_iff.mp he
    rw [hproc] at hnil
    rw [List.map_eq_nil_iff.mp hnil, List.map_nil]
  · rw [if_neg he]
    show (process_feed_items san items.reverse seen).map Prod.fst = _
    rw [hproc, List.map_map]
    rfl

/-- Witness for C7: the three-item feed `[C, B, A]` (newest first) with an
empty seen list is published as `[A, B, C]`. -/
theorem lambda_handler_chronological_witness :
    (lambda_handler id (some [itemC, itemB, itemA]) []).publishedGuids =
      [itemC, itemB, itemA].reverse.map (fun it => id it.guid) :=
  lambda_handler_chronological id [itemC, itemB, itemA] [] (by decide)

/-!
## Claim C8: deduplication and the second run
-/

/-- Counterexample to C8 as stated: a feed of 31 fresh items publishes 31
identifiers; pruning then evicts the oldest published identifier from the
persisted seen list, so re-running the pipeline over the very same feed
publishes that identifier once more — 1, not 0. -/
theorem second_run_republishes :
    (lambda_handler id (some feed31)
        ((lambda_handler id (some feed31) []).savedSeen.getD [])).publishedCount = 1 := by
  decide

/-- Amended C8: no produced candidate is already in the seen list; and the
second run over the same feed publishes zero identifiers **provided** the
seen list plus the newly published identifiers fit the 30-entry bound (so
pruning evicts none of them). -/
theorem process_feed_items_dedup (san : List Char → List Char)
    (items : List FeedItem) (seen : List (List Char)) :
    (∀ c ∈ process_feed_items san items seen, c.1 ∉ seen) ∧
      (seen.length + (lambda_handler san (some items) seen).publishedCount ≤
          MAX_ARTICLES_SEEN →
        (lambda_handler san (some items)
            ((lambda_handler san (some items) seen).savedSeen.getD seen)).publishedCount
          = 0) := by
  constructor
  · exact process_not_in_seen san items seen
  · intro hbound
    by_cases he : (process_feed_items san items.reverse seen).isEmpty = true
    · have h1 : lambda_handler san (some items) seen = ⟨none, none, false, [], [], 0⟩ := by
        rw [lambda_handler_some_eq, if_pos he]
      rw [h1]
      show (lambda_handler san (some items) seen).publishedCount = 0
      rw [h1]
    · have h1 : lambda_handler san (some items) seen =
          ⟨none,
            some (prune_articles_seen
              ((publish_articles (process_feed_items san items.reverse seen) seen).2.1)),
            true,
            (publish_articles (process_feed_items san items.reverse seen) seen).1,
            (process_feed_items san items.reverse seen).map Prod.fst,
            (publish_articles (process_feed_items san items.reverse seen) seen).2.2⟩ := by
        rw [lambda_handler_some_eq, if_neg he]
      obtain ⟨hseen_eq, hcount_eq⟩ :=
        publish_articles_spec (process_feed_items san items.reverse seen) seen
      rw [h1] at hbound
      have hbound' : seen.length +
          (process_feed_items san items.reverse seen).length ≤ MAX_ARTICLES_SEEN := by
        have : (lambda_handler san (some items) seen).publishedCount =
            (publish_articles (process_feed_items san items.reverse seen) seen).2.2 := by
          rw [h1]
        rw [hcount_eq] at hbound
        exact hbound
      have hprune : prune_articles_seen
          ((publish_articles (process_feed_items san items.reverse seen) seen).2.1) =
          seen ++ (process_feed_items san items.reverse seen).map Prod.fst := by
        rw [hseen_eq, prune_articles_seen, if_neg]
        rw [List.length_append, List.length_map]
        omega
      have hnil : process_feed_items san items.reverse
          (seen ++ (process_feed_items san items.reverse seen).map Prod.fst) = [] :=
        process_superset_nil san items.reverse seen _
          (fun g hg => List.mem_append_left _ hg)
          (fun g hg => List.mem_append_right _ hg)
      rw [h1]
      show (lambda_handler san (some items)
          (Option.getD (some (prune_articles_seen
            ((publish_articles (process_feed_items san items.reverse seen) seen).2.1)))
            seen)).publishedCount = 0
      rw [Option.getD_some, hprune, lambda_handler_some_eq, hnil, if_pos List.isEmpty_nil]

/-- Witness for the amended C8 on a one-item feed: its candidate's guid is
fresh and the second run publishes nothing. -/
theorem process_feed_items_dedup_witness :
    ((process_feed_items id [itemA] ([] : List (List Char))).getD 0 ([], [])).1 ∉
        ([] : List (List Char)) ∧
      (lambda_handler id (some [itemA])
          ((lambda_handler id (some [itemA]) []).savedSeen.getD [])).publishedCount = 0 :=
  ⟨(process_feed_items_dedup id [itemA] []).1 _ (by decide),
    (process_feed_items_dedup id [itemA] []).2 (by decide)⟩

/-!
## Claim C9: no state write and no target resolution on a no-op run
-/

/-- Claim C9: when the feed fetch fails, or when the candidate list is
empty, the handler neither calls `save_state` nor resolves the webhook
target. -/
theorem lambda_handler_noop_frame (san : List Char → List Char)
    (feed : Option (List FeedItem)) (seen : List (List Char))
    (h : feed = none ∨ ∃ items, feed = some items ∧
      process_feed_items san items.reverse seen = []) :
    (lambda_handler san feed seen).savedSeen = none ∧
      (lambda_handler san feed seen).webhookResolved = false := by
  rcases h with rfl | ⟨items, rfl, hempty⟩
  · exact ⟨rfl, rfl⟩
  · rw [lambda_handler_some_eq, hempty, if_pos List.isEmpty_nil]
    exact ⟨rfl, rfl⟩

/-- Witness for C9 on a failed fetch. -/
theorem lambda_handler_noop_frame_witness :
    (lambda_handler id none []).savedSeen = none ∧
      (lambda_handler id none []).webhookResolved = false :=
  lambda_handler_noop_frame id none [] (Or.inl rfl)

end Galnet
